import Mathlib

/-!
Verification development for the `mcp-git-repo-browser` MCP server
(`src/index.js`).  The JavaScript source is shallowly embedded:

* Node's POSIX `path.join` / `path.normalize` are modelled segment-wise
  (`splitSegsL`, `normLoop`, `normalizePath`, `pathJoin`);
* `crypto.createHash('sha256')` is modelled by a full SHA-256
  implementation over byte lists (`sha256Bytes`, `sha256hex`);
* the filesystem visible to `getDirectoryTree` and to the file reader is
  a finite tree (`FSTree`); the cache directories seen by `cloneRepo`
  are a finite map from absolute path to directory state (`FS`);
* `simple-git` operations are modelled by `probeRemotes` (the
  `getRemotes` probe) and by the clone step inside `cloneRepo`; a git
  clone refuses a non-empty destination directory, as real git does,
  and network success is an environment parameter (`GitEnv`).

All definitions are computable and structural unless noted, so concrete
runs evaluate with `decide` / `simp`.
-/

namespace GitRepoBrowser

/-! ## Path model: Node `path.posix.join` / `normalize` -/

/-- Splitting a character list at `'/'` (Node scans for separator
characters exactly like this); always returns a non-empty list of
segments. -/
def splitSegsL : List Char → List (List Char)
  | [] => [[]]
  | a :: rest =>
    match splitSegsL rest with
    | [] => [[]]
    | s :: ss => if a = '/' then [] :: s :: ss else (a :: s) :: ss

/-- Segments of a path string. -/
def splitSegs (s : String) : List String :=
  (splitSegsL s.data).map String.mk

/-- Joining segments with `'/'`. -/
def joinSegs : List String → String
  | [] => ""
  | [s] => s
  | s :: rest => s ++ "/" ++ joinSegs rest

/-- Node's `normalizeString` segment loop: drops empty and `"."`
segments, resolves `".."` by popping the previous segment, and keeps
`".."` only for relative paths (`allow = true`).  The accumulator is
kept reversed. -/
def normLoop (allow : Bool) : List String → List String → List String
  | racc, [] => racc.reverse
  | racc, s :: rest =>
    if s = "" ∨ s = "." then normLoop allow racc rest
    else if s = ".." then
      match racc with
      | t :: r =>
        if t = ".." then
          if allow then normLoop allow (".." :: t :: r) rest
          else normLoop allow (t :: r) rest
        else normLoop allow r rest
      | [] => if allow then normLoop allow [".."] rest else normLoop allow [] rest
    else normLoop allow (s :: racc) rest

/-- Node `path.posix.normalize`. -/
def normalizePath (p : String) : String :=
  if p = "" then "."
  else
    let isAbs := p.data.head? == some '/'
    let trail := p.data.getLast? == some '/'
    let segs := normLoop (!isAbs) [] (splitSegs p)
    if segs = [] then
      if isAbs then "/" else if trail then "./" else "."
    else
      (if isAbs then "/" else "") ++ joinSegs segs ++ (if trail then "/" else "")

/-- Node `path.posix.join` restricted to two arguments, which is how
`src/index.js` always calls it. -/
def pathJoin (a b : String) : String :=
  if a = "" then (if b = "" then "." else normalizePath b)
  else if b = "" then normalizePath a
  else normalizePath (a ++ "/" ++ b)

/-- A plain path segment: non-empty, not a dot segment, free of `'/'`. -/
def goodSeg (s : String) : Bool :=
  !(s = "" : Bool) && !(s = "." : Bool) && !(s = ".." : Bool) && !(s.data.contains '/')

/-- JavaScript `String.prototype.slice(0, n)`. -/
def strTake (s : String) (n : Nat) : String :=
  String.mk (s.data.take n)

/-- Boolean list-prefix test. -/
def listIsPfx : List Char → List Char → Bool
  | [], _ => true
  | _ :: _, [] => false
  | a :: as, b :: bs => a = b && listIsPfx as bs

/-- JavaScript `String.prototype.startsWith`. -/
def strStartsWith (s pat : String) : Bool :=
  listIsPfx pat.data s.data

/-! ## SHA-256 (`crypto.createHash('sha256').update(url).digest('hex')`)

Machine words are `Nat` reduced modulo `2 ^ 32` where overflow matters.
-/

/-- UTF-8 encoding of one Unicode scalar value, as byte values. -/
def utf8Bytes (n : Nat) : List Nat :=
  if n < 0x80 then [n]
  else if n < 0x800 then [0xC0 + n / 64, 0x80 + n % 64]
  else if n < 0x10000 then
    [0xE0 + n / 4096, 0x80 + n / 64 % 64, 0x80 + n % 64]
  else
    [0xF0 + n / 262144, 0x80 + n / 4096 % 64, 0x80 + n / 64 % 64, 0x80 + n % 64]

/-- The UTF-8 bytes of a string (Node hashes the URL's UTF-8 bytes). -/
def strBytes (s : String) : List Nat :=
  s.data.foldr (fun c acc => utf8Bytes c.toNat ++ acc) []

/-- Right rotation of a 32-bit word. -/
def rotr32 (n x : Nat) : Nat :=
  x / 2 ^ n + x % 2 ^ n * 2 ^ (32 - n)

/-- Bitwise complement of a 32-bit word. -/
def not32 (x : Nat) : Nat :=
  x ^^^ 0xFFFFFFFF

/-- The eight 32-bit words of the running hash. -/
structure Hash8 where
  a : Nat
  b : Nat
  c : Nat
  d : Nat
  e : Nat
  f : Nat
  g : Nat
  h : Nat

/-- SHA-256 initial hash value. -/
def sha256Init : Hash8 :=
  ⟨1779033703, 3144134277, 1013904242, 2773480762,
   1359893119, 2600822924, 528734635, 1541459225⟩

/-- SHA-256 round constants. -/
def sha256K : List Nat :=
  [1116352408, 1899447441, 3049323471, 3921009573, 961987163, 1508970993,
   2453635748, 2870763221, 3624381080, 310598401, 607225278, 1426881987,
   1925078388, 2162078206, 2614888103, 3248222580, 3835390401, 4022224774,
   264347078, 604807628, 770255983, 1249150122, 1555081692, 1996064986,
   2554220882, 2821834349, 2952996808, 3210313671, 3336571891, 3584528711,
   113926993, 338241895, 666307205, 773529912, 1294757372, 1396182291,
   1695183700, 1986661051, 2177026350, 2456956037, 2730485921, 2820302411,
   3259730800, 3345764771, 3516065817, 3600352804, 4094571909, 275423344,
   430227734, 506948616, 659060556, 883997877, 958139571, 1322822218,
   1537002063, 1747873779, 1955562222, 2024104815, 2227730452, 2361852424,
   2428436474, 2756734187, 3204031479, 3329325298]

/-- Big-endian bytes of a 32-bit word. -/
def wordBE (w : Nat) : List Nat :=
  [w / 2 ^ 24 % 256, w / 2 ^ 16 % 256, w / 2 ^ 8 % 256, w % 256]

/-- Big-endian 32-bit word from four bytes. -/
def wordOfBytes (b0 b1 b2 b3 : Nat) : Nat :=
  ((b0 * 256 + b1) * 256 + b2) * 256 + b3

/-- The sixteen words of one 64-byte block. -/
def blockWords : List Nat → List Nat
  | b0 :: b1 :: b2 :: b3 :: rest => wordOfBytes b0 b1 b2 b3 :: blockWords rest
  | _ => []

/-- Extend the 16-word message schedule to 64 words. -/
def extendW : List Nat → Nat → List Nat
  | w, 0 => w
  | w, n + 1 =>
    let len := w.length
    let w15 := w.getD (len - 15) 0
    let w2 := w.getD (len - 2) 0
    let s0 := rotr32 7 w15 ^^^ rotr32 18 w15 ^^^ w15 / 2 ^ 3
    let s1 := rotr32 17 w2 ^^^ rotr32 19 w2 ^^^ w2 / 2 ^ 10
    let next := (w.getD (len - 16) 0 + s0 + w.getD (len - 7) 0 + s1) % 2 ^ 32
    extendW (w ++ [next]) n

/-- One SHA-256 compression round. -/
def sha256Round (st : Hash8) (kw : Nat × Nat) : Hash8 :=
  let s1 := rotr32 6 st.e ^^^ rotr32 11 st.e ^^^ rotr32 25 st.e
  let ch := st.e &&& st.f ^^^ not32 st.e &&& st.g
  let t1 := (st.h + s1 + ch + kw.1 + kw.2) % 2 ^ 32
  let s0 := rotr32 2 st.a ^^^ rotr32 13 st.a ^^^ rotr32 22 st.a
  let maj := st.a &&& st.b ^^^ st.a &&& st.c ^^^ st.b &&& st.c
  let t2 := (s0 + maj) % 2 ^ 32
  ⟨(t1 + t2) % 2 ^ 32, st.a, st.b, st.c, (st.d + t1) % 2 ^ 32, st.e, st.f, st.g⟩

/-- Compress one 64-byte block into the running hash. -/
def compressBlock (st : Hash8) (block : List Nat) : Hash8 :=
  let w := extendW (blockWords block) 48
  let r := (sha256K.zip w).foldl sha256Round st
  ⟨(st.a + r.a) % 2 ^ 32, (st.b + r.b) % 2 ^ 32, (st.c + r.c) % 2 ^ 32,
   (st.d + r.d) % 2 ^ 32, (st.e + r.e) % 2 ^ 32, (st.f + r.f) % 2 ^ 32,
   (st.g + r.g) % 2 ^ 32, (st.h + r.h) % 2 ^ 32⟩

/-- SHA-256 padding: `0x80`, zeros to 56 mod 64, then the bit length in
eight big-endian bytes. -/
def sha256Pad (msg : List Nat) : List Nat :=
  let len := msg.length
  let zeros := (119 - len % 64) % 64
  msg ++ 0x80 :: List.replicate zeros 0
    ++ [8 * len / 2 ^ 56 % 256, 8 * len / 2 ^ 48 % 256, 8 * len / 2 ^ 40 % 256,
        8 * len / 2 ^ 32 % 256, 8 * len / 2 ^ 24 % 256, 8 * len / 2 ^ 16 % 256,
        8 * len / 2 ^ 8 % 256, 8 * len % 256]

/-- Split a byte list into 64-byte blocks (the fuel equals the length,
so the recursion is structural and kernel-reducible). -/
def chunk64Go : Nat → List Nat → List (List Nat)
  | 0, _ => []
  | _ + 1, [] => []
  | fuel + 1, a :: rest => (a :: rest).take 64 :: chunk64Go fuel ((a :: rest).drop 64)

/-- Split a byte list into 64-byte blocks. -/
def chunk64 (l : List Nat) : List (List Nat) :=
  chunk64Go l.length l

/-- SHA-256 digest of a byte list, as 32 bytes. -/
def sha256Bytes (msg : List Nat) : List Nat :=
  let hf := (chunk64 (sha256Pad msg)).foldl compressBlock sha256Init
  wordBE hf.a ++ wordBE hf.b ++ wordBE hf.c ++ wordBE hf.d
    ++ wordBE hf.e ++ wordBE hf.f ++ wordBE hf.g ++ wordBE hf.h

/-- The sixteen lowercase hex digits. -/
def hexChars : List Char :=
  ("0123456789abcdef" : String).data

/-- A hexadecimal digit character. -/
def isHexDigitChar (c : Char) : Bool :=
  c.isDigit || ('a' ≤ c && c ≤ 'f') || ('A' ≤ c && c ≤ 'F')

/-- Lowercase hex encoding of a byte list. -/
def hexOfBytes (bs : List Nat) : List Char :=
  bs.foldr (fun b acc => hexChars.getD (b / 16 % 16) '0' :: hexChars.getD (b % 16) '0' :: acc) []

/-- `crypto.createHash('sha256').update(s).digest('hex')`. -/
def sha256hex (s : String) : String :=
  String.mk (hexOfBytes (sha256Bytes (strBytes s)))

/-- The deterministic cache path of `src/index.js:19-23`:
`path.join(os.tmpdir(), 'github_tools_' + sha256(url).hex.slice(0, 12))`.
`tmpdir` abstracts `os.tmpdir()`. -/
def tempDirOf (tmpdir repoUrl : String) : String :=
  pathJoin tmpdir ("github_tools_" ++ strTake (sha256hex repoUrl) 12)

/-! ## Directory trees and `getDirectoryTree` (`src/index.js:52-75`) -/

/-- A finite filesystem tree: the modelled disk content of a working
copy.  Directory entries pair an entry name with its subtree. -/
inductive FSTree where
  | file (content : String) : FSTree
  | dir (entries : List (String × FSTree)) : FSTree

/-- `stats.isDirectory()`. -/
def FSTree.isDir : FSTree → Bool
  | .dir _ => true
  | .file _ => false

/-- Lexicographic (code-point) order on character lists; on the basic
multilingual plane this is exactly JavaScript's default string
comparison (UTF-16 code-unit order). -/
def charsLE : List Char → List Char → Bool
  | [], _ => true
  | _ :: _, [] => false
  | a :: as, b :: bs => if a = b then charsLE as bs else decide (a < b)

/-- String order used by `entries.sort()`. -/
def strLE (a b : String) : Bool :=
  charsLE a.data b.data

/-- Order on directory entries: by entry name. -/
def entryLE (x y : String × FSTree) : Bool :=
  strLE x.1 y.1

/-- Stable insertion into a sorted list. -/
def insertSortedBy {α : Type} (le : α → α → Bool) (a : α) : List α → List α
  | [] => [a]
  | b :: bs => if le a b then a :: b :: bs else b :: insertSortedBy le a bs

/-- Stable insertion sort; models JavaScript's stable
`Array.prototype.sort()`. -/
def sortBy {α : Type} (le : α → α → Bool) (l : List α) : List α :=
  l.foldr (insertSortedBy le) []

/-- `entries.sort()` on the entries read from a directory. -/
def sortEntries (es : List (String × FSTree)) : List (String × FSTree) :=
  sortBy entryLE es

theorem perm_insertSortedBy {α : Type} (le : α → α → Bool) (a : α) :
    ∀ l : List α, List.Perm (insertSortedBy le a l) (a :: l) := by
  intro l
  induction l with
  | nil => simp [insertSortedBy]
  | cons b bs ih =>
    simp only [insertSortedBy]
    by_cases h : le a b = true
    · simp [h]
    · simp only [h]
      exact (List.Perm.cons b ih).trans (List.Perm.swap a b bs)

theorem perm_sortBy {α : Type} (le : α → α → Bool) :
    ∀ l : List α, List.Perm (sortBy le l) l := by
  intro l
  induction l with
  | nil => simp [sortBy]
  | cons a as ih =>
    simp only [sortBy, List.foldr_cons]
    exact (perm_insertSortedBy le a _).trans (List.Perm.cons a ih)

theorem sizeOf_of_perm {α : Type} [SizeOf α] :
    ∀ {l l' : List α}, List.Perm l l' → sizeOf l = sizeOf l' := by
  intro l l' h
  induction h with
  | nil => rfl
  | cons x _ ih => simp [ih]
  | swap x y l => simp; omega
  | trans _ _ ih1 ih2 => omega

theorem sizeOf_sortEntries (es : List (String × FSTree)) :
    sizeOf (sortEntries es) = sizeOf es :=
  sizeOf_of_perm (perm_sortBy entryLE es)

mutual

/-- `getDirectoryTree(dirPath, prefix)` of `src/index.js:52-75`: read the
entry names, sort them, then walk them with an index.  Reading a
directory yields its entries; the function is never called on a file
(the recursion is guarded by `stats.isDirectory()`), so the `file` case
is unreachable and returns the empty rendering. -/
def getDirectoryTree : FSTree → String → String
  | .file _, _ => ""
  | .dir es, pfx => renderLoop pfx (sortEntries es).length 0 (sortEntries es)
termination_by t _ => sizeOf t
decreasing_by simp [sizeOf_sortEntries]

/-- The `for (let i = 0; ...)` loop body of `getDirectoryTree`:
`total` is `entries.length` of the full sorted listing, `i` the index of
the first element of the remaining list.  Entries whose name starts
with `".git"` are skipped; `isLast` is `i === entries.length - 1`
computed against the full listing. -/
def renderLoop (pfx : String) (total : Nat) : Nat → List (String × FSTree) → String
  | _, [] => ""
  | i, (name, sub) :: rest =>
    if strStartsWith name ".git" then renderLoop pfx total (i + 1) rest
    else
      pfx ++ (if i = total - 1 then "└── " else "├── ") ++ name ++ "\n"
        ++ (if sub.isDir then
              getDirectoryTree sub (pfx ++ (if i = total - 1 then "    " else "│   "))
            else "")
        ++ renderLoop pfx total (i + 1) rest
termination_by _ l => sizeOf l
decreasing_by all_goals (simp <;> omega)

end

/-- One rendered line, kept structured: the continuation `pre`, the
connector (`"└── "` or `"├── "`), and the entry name.  `lineText` below
recovers the literal output line. -/
structure RLine where
  pre : String
  conn : String
  name : String
deriving DecidableEq

mutual

/-- Structured mirror of `getDirectoryTree`: the list of rendered lines
in output order. -/
def renderRLines : FSTree → String → List RLine
  | .file _, _ => []
  | .dir es, pfx => renderRLinesLoop pfx (sortEntries es).length 0 (sortEntries es)
termination_by t _ => sizeOf t
decreasing_by simp [sizeOf_sortEntries]

/-- Structured mirror of `renderLoop`. -/
def renderRLinesLoop (pfx : String) (total : Nat) : Nat → List (String × FSTree) → List RLine
  | _, [] => []
  | i, (name, sub) :: rest =>
    if strStartsWith name ".git" then renderRLinesLoop pfx total (i + 1) rest
    else
      ⟨pfx, if i = total - 1 then "└── " else "├── ", name⟩
        :: ((if sub.isDir then
              renderRLines sub (pfx ++ (if i = total - 1 then "    " else "│   "))
            else [])
          ++ renderRLinesLoop pfx total (i + 1) rest)
termination_by _ l => sizeOf l
decreasing_by all_goals (simp <;> omega)

end

/-- The literal text of one rendered line. -/
def lineText (l : RLine) : String :=
  l.pre ++ l.conn ++ l.name ++ "\n"

/-- Concatenation of rendered lines. -/
def concatLines (ls : List RLine) : String :=
  ls.foldr (fun l acc => lineText l ++ acc) ""

/-! ## File reading (`src/index.js:183-196`)

The modelled disk contains exactly the working copy: an `FSTree`
mounted at the repository root path.  `fs.pathExists(fullPath)` and
`fs.readFile(fullPath, 'utf8')` are modelled by resolving `fullPath`
against that tree (`resolveFull`): a missing node is a missing path, a
file node reads its content, and a directory node fails to read the way
Node's `readFile` does (`EISDIR`). -/

/-- First entry with the given name (directory entries of real
directories have distinct names). -/
def findEntry (s : String) : List (String × FSTree) → Option FSTree
  | [] => none
  | (n, t) :: rest => if n = s then some t else findEntry s rest

/-- Walk a tree along a list of path segments. -/
def FSTree.walk : FSTree → List String → Option FSTree
  | t, [] => some t
  | .dir es, s :: rest =>
    match findEntry s es with
    | some t' => t'.walk rest
    | none => none
  | .file _, _ :: _ => none

/-- Strip a literal leading string, if present. -/
def dropPfxStr (pre s : String) : Option String :=
  if listIsPfx pre.data s.data then some (String.mk (s.data.drop pre.data.length))
  else none

/-- Resolve an absolute path against the working copy mounted at
`root`.  Empty segments (a trailing slash) are ignored. -/
def resolveFull (root : String) (t : FSTree) (full : String) : Option FSTree :=
  if full = root then some t
  else
    match dropPfxStr (root ++ "/") full with
    | some rest => t.walk ((splitSegs rest).filter (fun s => !(s = "" : Bool)))
    | none => none

/-- The per-path body of the `for (const filePath of file_paths)` loop:
`path.join`, `fs.pathExists`, then `fs.readFile` with its `catch`. -/
def readOutcome (root : String) (t : FSTree) (p : String) : String :=
  match resolveFull root t (pathJoin root p) with
  | none => "Error: File not found"
  | some (.file c) => c
  | some (.dir _) => "Error reading file: EISDIR: illegal operation on a directory, read"

/-- JavaScript object assignment `results[k] = v`: overwrite in place if
the key exists, else append. -/
def setKey (m : List (String × String)) (k v : String) : List (String × String) :=
  match m with
  | [] => [(k, v)]
  | (k', v') :: rest => if k' = k then (k', v) :: rest else (k', v') :: setKey rest k v

/-- The whole read loop: the insertion-ordered `results` object. -/
def readAll (root : String) (t : FSTree) (paths : List String) : List (String × String) :=
  paths.foldl (fun acc p => setKey acc p (readOutcome root t p)) []

/-! ## Repository acquisition (`cloneRepo`, `src/index.js:17-49`) -/

/-- The acquisition environment: whether cloning a URL succeeds at the
network level, the error message when it does not, and the working tree
a successful clone of the URL materializes. -/
structure GitEnv where
  cloneOk : String → Bool
  cloneErrMsg : String → String
  repoTree : String → FSTree

/-- State of one cache directory on disk. -/
inductive DirSt where
  /-- Exists and is empty (as `fs.ensureDir` leaves it). -/
  | emptyD : DirSt
  /-- A git working copy: the fetch URLs of its remotes (in
  `getRemotes(true)` order) and its working tree. -/
  | repo (remotes : List String) (tree : FSTree) : DirSt
  /-- Exists, non-empty, but not a usable git repository: probing it
  throws. -/
  | broken : DirSt

/-- The temp-directory area of the disk: a finite map from absolute
path to cache-directory state. -/
structure FS where
  dirs : List (String × DirSt)

/-- First value bound to a key. -/
def lookupKey (p : String) : List (String × DirSt) → Option DirSt
  | [] => none
  | (k, v) :: rest => if k = p then some v else lookupKey p rest

/-- `fs.pathExists` / state of the path. -/
def FS.lookup (fs : FS) (p : String) : Option DirSt :=
  lookupKey p fs.dirs

/-- `fs.remove(p)`: the path is gone afterwards. -/
def FS.erase (fs : FS) (p : String) : FS :=
  ⟨fs.dirs.filter (fun e => !(e.1 = p : Bool))⟩

/-- Bind a path to a directory state. -/
def FS.set (fs : FS) (p : String) (st : DirSt) : FS :=
  ⟨(p, st) :: (fs.erase p).dirs⟩

/-- `fs.ensureDir(p)`: create an empty directory unless the path
already exists. -/
def FS.ensureDir (fs : FS) (p : String) : FS :=
  if (fs.lookup p).isSome then fs else fs.set p .emptyD

/-- `simpleGit(tempDir).getRemotes(true)`: succeeds on a working copy
with its remote fetch URLs, throws otherwise. -/
def probeRemotes : DirSt → Except String (List String)
  | .repo rs _ => .ok rs
  | .emptyD => .error "fatal: not a git repository"
  | .broken => .error "fatal: not a git repository"

/-- Result of one `cloneRepo` call: the returned path or thrown error,
the disk afterwards, and how many times the git clone primitive was
invoked (each invocation is the one network fetch of the design). -/
structure CloneResult where
  res : Except String String
  fs : FS
  cloneCalls : Nat

/-- Lines 40-48 of `src/index.js`: `fs.ensureDir` then
`simpleGit().clone(repoUrl, tempDir)` with cleanup on failure.  Git
refuses to clone into an existing non-empty directory, so the clone
succeeds only into the empty directory `ensureDir` guarantees, and only
when the network fetch succeeds. -/
def doClone (env : GitEnv) (fs1 : FS) (td url : String) : CloneResult :=
  let fs2 := fs1.ensureDir td
  match fs2.lookup td with
  | some .emptyD =>
    if env.cloneOk url then
      ⟨.ok td, fs2.set td (.repo [url] (env.repoTree url)), 1⟩
    else
      ⟨.error ("Failed to clone repository: " ++ env.cloneErrMsg url), fs2.erase td, 1⟩
  | _ =>
    ⟨.error "Failed to clone repository: fatal: destination path already exists and is not an empty directory.",
     fs2.erase td, 1⟩

/-- `cloneRepo(repoUrl)` of `src/index.js:17-49`.  If the cache path
exists, probe it: a first remote whose fetch URL equals `repoUrl` is
reused with no clone call; a probe failure removes the directory
(the `catch` block); any other probe outcome falls through to the
clone step with the directory left in place. -/
def cloneRepo (env : GitEnv) (tmpdir : String) (fs : FS) (repoUrl : String) : CloneResult :=
  let td := tempDirOf tmpdir repoUrl
  match fs.lookup td with
  | none => doClone env fs td repoUrl
  | some st =>
    match probeRemotes st with
    | .ok remotes =>
      match remotes with
      | r0 :: _ =>
        if r0 = repoUrl then ⟨.ok td, fs, 0⟩ else doClone env fs td repoUrl
      | [] => doClone env fs td repoUrl
    | .error _ => doClone env (fs.erase td) td repoUrl

/-- The working tree materialized at a path (used by the handlers after
a successful acquisition, which always leaves a `repo` state there). -/
def FS.treeAt (fs : FS) (p : String) : FSTree :=
  match fs.lookup p with
  | some (.repo _ t) => t
  | _ => .dir []

/-! ## Tool handlers (`src/index.js:155-217`) -/

/-- The response envelope: the single text content block and the
`isError` flag (absent in JavaScript means `false`). -/
structure ToolResponse where
  text : String
  isError : Bool
deriving DecidableEq

/-- JSON escaping of one character, as `JSON.stringify` performs it. -/
def jsonEscChar (c : Char) : List Char :=
  if c = '"' then ['\\', '"']
  else if c = '\\' then ['\\', '\\']
  else if c = '\n' then ['\\', 'n']
  else if c = '\r' then ['\\', 'r']
  else if c = '\t' then ['\\', 't']
  else if c = '\x08' then ['\\', 'b']
  else if c = '\x0c' then ['\\', 'f']
  else if c.toNat < 32 then
    ['\\', 'u', '0', '0', hexChars.getD (c.toNat / 16) '0', hexChars.getD (c.toNat % 16) '0']
  else [c]

/-- A JSON string literal. -/
def jsonStr (s : String) : String :=
  "\"" ++ String.mk (s.data.foldr (fun c acc => jsonEscChar c ++ acc) []) ++ "\""

/-- Join strings with a separator. -/
def joinSep (sep : String) : List String → String
  | [] => ""
  | [s] => s
  | s :: rest => s ++ sep ++ joinSep sep rest

/-- `JSON.stringify(obj, null, 2)` for an object whose values are
strings, in insertion order. -/
def stringifyPairs (ps : List (String × String)) : String :=
  match ps with
  | [] => "\x7b\x7d"
  | _ =>
    "\x7b\n" ++ joinSep ",\n" (ps.map (fun kv => "  " ++ jsonStr kv.1 ++ ": " ++ jsonStr kv.2))
      ++ "\n\x7d"

/-- `handleGitDirectoryStructure` (`src/index.js:155-178`): acquire,
render, and wrap; any thrown error becomes a soft-failure envelope. -/
def handleGitDirectoryStructure (env : GitEnv) (tmpdir : String) (fs : FS)
    (repo_url : String) : ToolResponse × FS :=
  let r := cloneRepo env tmpdir fs repo_url
  match r.res with
  | .ok p => (⟨getDirectoryTree (r.fs.treeAt p) "", false⟩, r.fs)
  | .error e => (⟨"Error: " ++ e, true⟩, r.fs)

/-- `handleGitReadImportantFiles` (`src/index.js:180-217`): acquire,
read every requested path, and wrap; any thrown error becomes a
soft-failure envelope with a JSON error object. -/
def handleGitReadImportantFiles (env : GitEnv) (tmpdir : String) (fs : FS)
    (repo_url : String) (file_paths : List String) : ToolResponse × FS :=
  let r := cloneRepo env tmpdir fs repo_url
  match r.res with
  | .ok p => (⟨stringifyPairs (readAll p (r.fs.treeAt p) file_paths), false⟩, r.fs)
  | .error e =>
    (⟨stringifyPairs [("error", "Failed to process repository: " ++ e)], true⟩, r.fs)

/-! ## String and path lemmas -/

theorem strData_append (a b : String) : (a ++ b).data = a.data ++ b.data := rfl

theorem strExt {a b : String} (h : a.data = b.data) : a = b := by
  cases a; cases b; exact congrArg String.mk h

theorem strAppend_assoc (a b c : String) : a ++ b ++ c = a ++ (b ++ c) := by
  apply strExt; simp [strData_append]

theorem strAppend_empty (s : String) : s ++ "" = s := by
  apply strExt; simp [strData_append]

theorem strNe_of_data_ne {a b : String} (h : a.data ≠ b.data) : a ≠ b := by
  intro hab; exact h (by rw [hab])

theorem splitSegsL_ne_nil (l : List Char) : splitSegsL l ≠ [] := by
  induction l with
  | nil => simp [splitSegsL]
  | cons a rest ih =>
    simp only [splitSegsL]
    cases h : splitSegsL rest with
    | nil => simp
    | cons s ss => by_cases ha : a = '/' <;> simp [ha]

theorem splitSegsL_append (xs ys : List Char) :
    splitSegsL (xs ++ '/' :: ys) = splitSegsL xs ++ splitSegsL ys := by
  induction xs with
  | nil =>
    simp only [List.nil_append, splitSegsL]
    cases h : splitSegsL ys with
    | nil => exact absurd h (splitSegsL_ne_nil ys)
    | cons s ss => simp [splitSegsL]
  | cons a xs ih =>
    obtain ⟨s, ss, h⟩ : ∃ s ss, splitSegsL xs = s :: ss := by
      cases h : splitSegsL xs with
      | nil => exact absurd h (splitSegsL_ne_nil xs)
      | cons s ss => exact ⟨s, ss, rfl⟩
    by_cases ha : a = '/' <;>
      simp [List.cons_append, splitSegsL, ih, h, ha]

theorem splitSegsL_no_slash (l : List Char) (h : l.contains '/' = false) :
    splitSegsL l = [l] := by
  induction l with
  | nil => rfl
  | cons a rest ih =>
    simp only [List.contains_cons, Bool.or_eq_false_iff] at h
    obtain ⟨ha, hrest⟩ := h
    have ha'' : ¬('/' = a) := by simpa using ha
    have ha' : a ≠ '/' := fun hx => ha'' hx.symm
    simp [splitSegsL, ih hrest, ha']

theorem goodSeg_spec {s : String} (h : goodSeg s = true) :
    s ≠ "" ∧ s ≠ "." ∧ s ≠ ".." ∧ s.data.contains '/' = false := by
  simp only [goodSeg, Bool.and_eq_true, Bool.not_eq_true'] at h
  obtain ⟨⟨⟨h1, h2⟩, h3⟩, h4⟩ := h
  exact ⟨by simpa using h1, by simpa using h2, by simpa using h3, h4⟩

theorem joinSegs_data_ne_nil (R : List String) (hne : R ≠ [])
    (hg : ∀ s ∈ R, goodSeg s = true) : (joinSegs R).data ≠ [] := by
  cases R with
  | nil => exact absurd rfl hne
  | cons r rest =>
    have hr := goodSeg_spec (hg r (by simp))
    have hrd : r.data ≠ [] := by
      intro h
      exact hr.1 (strExt (by simpa using h))
    cases rest with
    | nil => simpa [joinSegs] using hrd
    | cons s ss =>
      have hd : (joinSegs (r :: s :: ss)).data
          = r.data ++ '/' :: (joinSegs (s :: ss)).data := by
        simp [joinSegs, strData_append]
      simp [hd]

theorem splitSegsL_joinSegs (R : List String) (hne : R ≠ [])
    (hg : ∀ s ∈ R, goodSeg s = true) :
    splitSegsL (joinSegs R).data = R.map String.data := by
  induction R with
  | nil => exact absurd rfl hne
  | cons r rest ih =>
    have hr := goodSeg_spec (hg r (by simp))
    cases rest with
    | nil => simp [joinSegs, splitSegsL_no_slash r.data hr.2.2.2]
    | cons s ss =>
      have hrest : (s :: ss : List String) ≠ [] := by simp
      have hgrest : ∀ x ∈ s :: ss, goodSeg x = true := fun x hx => hg x (by simp [hx])
      have hdata : (r ++ "/" ++ joinSegs (s :: ss)).data
          = r.data ++ '/' :: (joinSegs (s :: ss)).data := by
        simp [strData_append]
      simp only [joinSegs, hdata, splitSegsL_append,
        splitSegsL_no_slash r.data hr.2.2.2, ih hrest hgrest]
      simp

theorem normLoop_goods (allow : Bool) (racc : List String) (good rest : List String)
    (h : ∀ s ∈ good, goodSeg s = true) :
    normLoop allow racc (good ++ rest) = normLoop allow (good.reverse ++ racc) rest := by
  induction good generalizing racc with
  | nil => simp
  | cons g gs ih =>
    have hgd := goodSeg_spec (h g (by simp))
    have hgs : ∀ s ∈ gs, goodSeg s = true := fun s hs => h s (by simp [hs])
    simp only [List.cons_append, normLoop]
    rw [if_neg (by rintro (hx | hx) <;> [exact hgd.1 hx; exact hgd.2.1 hx]),
      if_neg hgd.2.2.1]
    simp only [List.append_eq]
    rw [ih (g :: racc) hgs]
    simp

theorem normLoop_noDots (allow : Bool) (racc : List String) (P : List String)
    (h : ∀ s ∈ P, s ≠ "..") :
    normLoop allow racc P
      = racc.reverse ++ P.filter (fun s => !(s = "" : Bool) && !(s = "." : Bool)) := by
  induction P generalizing racc with
  | nil => simp [normLoop]
  | cons p ps ih =>
    have hp : p ≠ ".." := h p (by simp)
    have hps : ∀ s ∈ ps, s ≠ ".." := fun s hs => h s (by simp [hs])
    by_cases hpe : p = "" ∨ p = "."
    · simp [normLoop, hpe, ih racc hps, List.filter_cons]
      rcases hpe with hpe | hpe <;> simp [hpe]
    · push_neg at hpe
      simp only [normLoop, if_neg (by tauto), if_neg hp, ih (p :: racc) hps,
        List.filter_cons]
      simp [hpe.1, hpe.2]

theorem joinSegs_append (R S : List String) (hne : R ≠ []) :
    joinSegs (R ++ S) = joinSegs R ++ (if S = [] then "" else "/" ++ joinSegs S) := by
  induction R with
  | nil => exact absurd rfl hne
  | cons r rest ih =>
    cases rest with
    | nil =>
      cases S with
      | nil => simp [joinSegs, strAppend_empty]
      | cons s ss => simp [joinSegs, strAppend_assoc]
    | cons q qs =>
      have h1 : joinSegs (r :: q :: qs) = r ++ "/" ++ joinSegs (q :: qs) := rfl
      have h2 : joinSegs (r :: q :: (qs ++ S)) = r ++ "/" ++ joinSegs (q :: (qs ++ S)) := rfl
      have ih' := ih (by simp)
      simp only [List.cons_append] at ih' ⊢
      rw [h2, ih', h1]
      cases S <;> simp [strAppend_empty, strAppend_assoc]

theorem splitSegsL_slash_cons (Y : List Char) :
    splitSegsL ('/' :: Y) = [] :: splitSegsL Y := by
  simpa using splitSegsL_append [] Y

theorem mem_of_getLast?Char : ∀ {l : List Char} {c : Char}, l.getLast? = some c → c ∈ l := by
  intro l
  induction l with
  | nil => intro c h; simp at h
  | cons a rest ih =>
    intro c h
    cases rest with
    | nil => simp_all
    | cons b bs =>
      have : (b :: bs : List Char).getLast? = some c := by
        simpa [List.getLast?] using h
      exact List.mem_cons_of_mem a (ih this)

theorem getLast?_append_ne (xs ys : List Char) (h : ys ≠ []) :
    (xs ++ ys).getLast? = ys.getLast? := by
  induction xs with
  | nil => simp
  | cons a rest ih =>
    have hne : rest ++ ys ≠ [] := by simp [h]
    cases he : rest ++ ys with
    | nil => exact absurd he hne
    | cons b bs =>
      simp only [List.cons_append, he, List.getLast?_cons_cons]
      rw [← he, ih]

theorem not_mem_of_contains_false {l : List Char} {c : Char}
    (h : l.contains c = false) : c ∉ l := by
  induction l with
  | nil => simp
  | cons a rest ih =>
    simp only [List.contains_cons, Bool.or_eq_false_iff] at h
    have hca : ¬(c = a) := by simpa using h.1
    simp [hca, ih h.2]

theorem joinSegs_last_ne_slash (R : List String) (hne : R ≠ [])
    (hg : ∀ s ∈ R, goodSeg s = true) :
    (joinSegs R).data.getLast? ≠ some '/' := by
  induction R with
  | nil => exact absurd rfl hne
  | cons r rest ih =>
    cases rest with
    | nil =>
      intro h
      have hr := goodSeg_spec (hg r (by simp))
      exact not_mem_of_contains_false hr.2.2.2 (mem_of_getLast?Char (by simpa [joinSegs] using h))
    | cons s ss =>
      have hrest : (joinSegs (s :: ss)).data ≠ [] :=
        joinSegs_data_ne_nil (s :: ss) (by simp) (fun x hx => hg x (by simp [hx]))
      have hd : (joinSegs (r :: s :: ss)).data
          = (r.data ++ ['/']) ++ (joinSegs (s :: ss)).data := by
        simp [joinSegs, strData_append]
      rw [hd, getLast?_append_ne _ _ hrest]
      exact ih (by simp) (fun x hx => hg x (by simp [hx]))

theorem splitSegs_abs (R : List String) (p : String) (hne : R ≠ [])
    (hg : ∀ s ∈ R, goodSeg s = true) :
    splitSegs ("/" ++ joinSegs R ++ "/" ++ p) = "" :: (R ++ splitSegs p) := by
  have hdata : ("/" ++ joinSegs R ++ "/" ++ p).data
      = '/' :: ((joinSegs R).data ++ '/' :: p.data) := by
    simp [strData_append]
  unfold splitSegs
  rw [hdata, splitSegsL_slash_cons, splitSegsL_append,
    splitSegsL_joinSegs R hne hg]
  have hid : (String.mk ∘ String.data) = id := funext fun s => rfl
  simp only [List.map_cons, List.map_append, List.map_map, hid, List.map_id]

theorem normLoop_false_clean (R P : List String) (hg : ∀ s ∈ R, goodSeg s = true)
    (hp : ∀ s ∈ P, s ≠ "..") :
    normLoop false [] ("" :: (R ++ P))
      = R ++ P.filter (fun s => !(s = "" : Bool) && !(s = "." : Bool)) := by
  have h0 : normLoop false [] ("" :: (R ++ P)) = normLoop false [] (R ++ P) := by
    simp [normLoop]
  rw [h0, normLoop_goods false [] R P hg, normLoop_noDots false _ P hp]
  simp

/-- The shape of `normalizePath` on a non-empty absolute path whose
cleaned segment list is known and non-empty. -/
theorem normalizePath_shape (q : String) (L : List String) (hq : q ≠ "")
    (habs : q.data.head? = some '/')
    (hsegs : normLoop false [] (splitSegs q) = L) (hL : L ≠ []) :
    normalizePath q
      = "/" ++ joinSegs L ++ (if q.data.getLast? == some '/' then "/" else "") := by
  unfold normalizePath
  rw [if_neg hq]
  have habs' : (q.data.head? == some '/') = true := by simpa using habs
  simp only [habs', Bool.not_true]
  rw [hsegs, if_neg hL]
  simp

theorem splitSegs_root (R : List String) (hne : R ≠ [])
    (hg : ∀ s ∈ R, goodSeg s = true) :
    splitSegs ("/" ++ joinSegs R) = "" :: R := by
  have hdata : ("/" ++ joinSegs R).data = '/' :: (joinSegs R).data := by
    simp [strData_append]
  unfold splitSegs
  rw [hdata, splitSegsL_slash_cons, splitSegsL_joinSegs R hne hg]
  have hid : (String.mk ∘ String.data) = id := funext fun s => rfl
  simp only [List.map_cons, List.map_map, hid, List.map_id]

/-- An already-normalized absolute path is a fixed point of
`normalizePath`. -/
theorem normalizePath_root (R : List String) (hne : R ≠ [])
    (hg : ∀ s ∈ R, goodSeg s = true) :
    normalizePath ("/" ++ joinSegs R) = "/" ++ joinSegs R := by
  have hroot_ne : ("/" ++ joinSegs R) ≠ "" := by
    apply strNe_of_data_ne
    simp [strData_append]
  have habs : ("/" ++ joinSegs R).data.head? = some '/' := by
    have : ("/" ++ joinSegs R).data = '/' :: (joinSegs R).data := by
      simp [strData_append]
    rw [this]; rfl
  have hsegs : normLoop false [] (splitSegs ("/" ++ joinSegs R)) = R := by
    rw [splitSegs_root R hne hg]
    have := normLoop_false_clean R [] hg (by simp)
    simpa using this
  have hshape := normalizePath_shape _ _ hroot_ne habs hsegs hne
  have hjR_ne : (joinSegs R).data ≠ [] := joinSegs_data_ne_nil R hne hg
  have htrail : ¬(("/" ++ joinSegs R).data.getLast? == some '/') = true := by
    have hd : ("/" ++ joinSegs R).data = ['/'] ++ (joinSegs R).data := by
      simp [strData_append]
    rw [hd, getLast?_append_ne _ _ hjR_ne]
    simp only [beq_iff_eq]
    exact joinSegs_last_ne_slash R hne hg
  rw [hshape]
  simp only [Bool.not_eq_true] at htrail
  rw [htrail]
  exact strAppend_empty _

/-- `path.join(root, p)` for a normalized absolute root and a `p` free
of `".."` segments stays beneath `root`. -/
theorem pathJoin_confined (R : List String) (p : String) (hne : R ≠ [])
    (hg : ∀ s ∈ R, goodSeg s = true) (hp : ∀ s ∈ splitSegs p, s ≠ "..") :
    ∃ suf, pathJoin ("/" ++ joinSegs R) p = ("/" ++ joinSegs R) ++ suf
      ∧ (suf = "" ∨ suf.data.head? = some '/') := by
  have hroot_data : ("/" ++ joinSegs R).data = '/' :: (joinSegs R).data := by
    simp [strData_append]
  have hroot_ne : ("/" ++ joinSegs R) ≠ "" := by
    apply strNe_of_data_ne
    rw [hroot_data]
    simp
  by_cases hpe : p = ""
  · subst hpe
    refine ⟨"", ?_, Or.inl rfl⟩
    rw [strAppend_empty]
    unfold pathJoin
    rw [if_neg hroot_ne, if_pos rfl]
    exact normalizePath_root R hne hg
  · have hq_ne : ("/" ++ joinSegs R ++ "/" ++ p) ≠ "" := by
      apply strNe_of_data_ne
      simp [strData_append]
    have habs : ("/" ++ joinSegs R ++ "/" ++ p).data.head? = some '/' := by
      have : ("/" ++ joinSegs R ++ "/" ++ p).data
          = '/' :: ((joinSegs R).data ++ '/' :: p.data) := by simp [strData_append]
      rw [this]; rfl
    set F := (splitSegs p).filter (fun s => !(s = "" : Bool) && !(s = "." : Bool)) with hF
    have hsegs : normLoop false [] (splitSegs ("/" ++ joinSegs R ++ "/" ++ p)) = R ++ F := by
      rw [splitSegs_abs R p hne hg, normLoop_false_clean R (splitSegs p) hg hp]
    have hL : R ++ F ≠ [] := by simp [hne]
    have hshape := normalizePath_shape _ _ hq_ne habs hsegs hL
    have hjoin : pathJoin ("/" ++ joinSegs R) p
        = normalizePath ("/" ++ joinSegs R ++ "/" ++ p) := by
      unfold pathJoin
      rw [if_neg hroot_ne, if_neg hpe]
    set T := (if ("/" ++ joinSegs R ++ "/" ++ p).data.getLast? == some '/'
        then "/" else ("" : String)) with hT
    by_cases hFe : F = []
    · refine ⟨T, ?_, ?_⟩
      · rw [hjoin, hshape, hFe]
        apply strExt
        simp [strData_append, List.append_nil]
      · rw [hT]
        by_cases htr : (("/" ++ joinSegs R ++ "/" ++ p).data.getLast? == some '/') = true
        · rw [if_pos htr]; right; rfl
        · rw [if_neg htr]; left; rfl
    · refine ⟨"/" ++ joinSegs F ++ T, ?_, Or.inr ?_⟩
      · rw [hjoin, hshape, joinSegs_append R F hne, if_neg hFe]
        apply strExt
        simp [strData_append]
      · simp [strData_append]

/-- `path.join(root, seg)` for a normalized absolute root and a single
good segment is plain concatenation — the cache-path special case. -/
theorem pathJoin_seg (R : List String) (seg : String) (hne : R ≠ [])
    (hg : ∀ s ∈ R, goodSeg s = true) (hseg : goodSeg seg = true) :
    pathJoin ("/" ++ joinSegs R) seg = ("/" ++ joinSegs R) ++ "/" ++ seg := by
  have hs := goodSeg_spec hseg
  have hroot_ne : ("/" ++ joinSegs R) ≠ "" := by
    apply strNe_of_data_ne
    simp [strData_append]
  have hq_ne : ("/" ++ joinSegs R ++ "/" ++ seg) ≠ "" := by
    apply strNe_of_data_ne
    simp [strData_append]
  have habs : ("/" ++ joinSegs R ++ "/" ++ seg).data.head? = some '/' := by
    have : ("/" ++ joinSegs R ++ "/" ++ seg).data
        = '/' :: ((joinSegs R).data ++ '/' :: seg.data) := by simp [strData_append]
    rw [this]; rfl
  have hsplit : splitSegs seg = [seg] := by
    unfold splitSegs
    rw [splitSegsL_no_slash seg.data hs.2.2.2]
    rfl
  have hsegs : normLoop false [] (splitSegs ("/" ++ joinSegs R ++ "/" ++ seg))
      = R ++ [seg] := by
    rw [splitSegs_abs R seg hne hg,
      normLoop_false_clean R (splitSegs seg) hg
        (by rw [hsplit]; intro s hs'; simp at hs'; subst hs'; exact hs.2.2.1)]
    rw [hsplit]
    simp [List.filter_cons, hs.1, hs.2.1]
  have hL : R ++ [seg] ≠ [] := by simp
  have hshape := normalizePath_shape _ _ hq_ne habs hsegs hL
  have hsdata_ne : seg.data ≠ [] := by
    intro h; exact hs.1 (strExt (by simpa using h))
  have htrail : ¬(("/" ++ joinSegs R ++ "/" ++ seg).data.getLast? == some '/') = true := by
    have hd : ("/" ++ joinSegs R ++ "/" ++ seg).data
        = (('/' :: (joinSegs R).data) ++ ['/']) ++ seg.data := by
      simp [strData_append]
    rw [hd, getLast?_append_ne _ _ hsdata_ne]
    simp only [beq_iff_eq]
    intro h
    exact not_mem_of_contains_false hs.2.2.2 (mem_of_getLast?Char h)
  have hjoin : pathJoin ("/" ++ joinSegs R) seg
      = normalizePath ("/" ++ joinSegs R ++ "/" ++ seg) := by
    unfold pathJoin
    rw [if_neg hroot_ne, if_neg hs.1]
  rw [hjoin, hshape, joinSegs_append R [seg] hne]
  simp only [Bool.not_eq_true] at htrail
  rw [htrail]
  apply strExt
  simp [strData_append, joinSegs]

/-! ## Digest lemmas and the cache-path claims -/

theorem getD_mem_hexChars (n : Nat) : hexChars.getD n '0' ∈ hexChars := by
  rcases Nat.lt_or_ge n 16 with h | h
  · interval_cases n <;> decide
  · have : hexChars.length ≤ n := by simpa [hexChars] using h
    rw [List.getD_eq_default _ _ this]
    decide

theorem mem_hexOfBytes {bs : List Nat} {c : Char} (h : c ∈ hexOfBytes bs) :
    c ∈ hexChars := by
  induction bs with
  | nil => simp [hexOfBytes] at h
  | cons b rest ih =>
    have hcons : hexOfBytes (b :: rest)
        = hexChars.getD (b / 16 % 16) '0' :: hexChars.getD (b % 16) '0' :: hexOfBytes rest := rfl
    rw [hcons] at h
    simp only [List.mem_cons] at h
    rcases h with h | h | h
    · subst h; exact getD_mem_hexChars _
    · subst h; exact getD_mem_hexChars _
    · exact ih h

theorem length_hexOfBytes (bs : List Nat) : (hexOfBytes bs).length = 2 * bs.length := by
  induction bs with
  | nil => rfl
  | cons b rest ih =>
    have hcons : hexOfBytes (b :: rest)
        = hexChars.getD (b / 16 % 16) '0' :: hexChars.getD (b % 16) '0' :: hexOfBytes rest := rfl
    rw [hcons]
    simp [ih]
    omega

theorem length_sha256Bytes (msg : List Nat) : (sha256Bytes msg).length = 32 := by
  simp [sha256Bytes, wordBE]

theorem sha256hex_length (s : String) : (sha256hex s).length = 64 := by
  show (hexOfBytes (sha256Bytes (strBytes s))).length = 64
  rw [length_hexOfBytes, length_sha256Bytes]

theorem sha256hex_chars {s : String} {c : Char} (h : c ∈ (sha256hex s).data) :
    c ∈ hexChars :=
  mem_hexOfBytes h

/-- Sanity anchor: the model's SHA-256 reproduces the official FIPS
180-2 test vector for `"abc"`. -/
theorem sha256hex_abc :
    sha256hex "abc" = "ba7816bf8f01cfea414140de5dae2223b00361a396177a9cb410ff61f20015ad" := by
  decide

theorem contains_false_of_forall {l : List Char} {c : Char}
    (h : ∀ x ∈ l, x ≠ c) : l.contains c = false := by
  induction l with
  | nil => rfl
  | cons a rest ih =>
    have ha : ¬(c = a) := fun he => h a (by simp) he.symm
    simp only [List.contains_cons]
    rw [ih (fun x hx => h x (by simp [hx]))]
    simp [ha]

theorem strTake12_length (s : String) (h : s.length = 64) :
    (strTake s 12).length = 12 := by
  show (s.data.take 12).length = 12
  have : s.data.length = 64 := h
  simp [List.length_take, this]

theorem cacheSeg_good (url : String) :
    goodSeg ("github_tools_" ++ strTake (sha256hex url) 12) = true := by
  have hlen : ("github_tools_" ++ strTake (sha256hex url) 12).data.length = 25 := by
    rw [strData_append]
    have h13 : ("github_tools_" : String).data.length = 13 := rfl
    have h12 : (strTake (sha256hex url) 12).data.length = 12 :=
      strTake12_length _ (sha256hex_length url)
    simp [h13, h12]
  have hcontains : ("github_tools_" ++ strTake (sha256hex url) 12).data.contains '/' = false := by
    apply contains_false_of_forall
    intro x hx
    rw [strData_append] at hx
    rcases List.mem_append.mp hx with hx | hx
    · have : ("github_tools_" : String).data
          = ['g', 'i', 't', 'h', 'u', 'b', '_', 't', 'o', 'o', 'l', 's', '_'] := rfl
      rw [this] at hx
      fin_cases hx <;> decide
    · have hx' : x ∈ (sha256hex url).data := List.take_subset 12 _ hx
      have hmem : x ∈ hexChars := sha256hex_chars hx'
      fin_cases hmem <;> decide
  have hne : ∀ t : String, t.data.length ≠ 25 →
      ("github_tools_" ++ strTake (sha256hex url) 12) ≠ t := by
    intro t ht he
    exact ht (by rw [← he, hlen])
  simp only [goodSeg, Bool.and_eq_true, Bool.not_eq_true', decide_eq_false_iff_not]
  exact ⟨⟨⟨hne "" (by decide), hne "." (by decide)⟩, hne ".." (by decide)⟩, hcontains⟩

/-- C8: the cache path is `os.tmpdir()` joined with
`github_tools_<first 12 hex chars of sha256(url)>`; the digest really
is 64 lowercase hex characters of SHA-256, and the mapping from URL to
path is a function, so one URL always denotes one cache directory. -/
theorem cache_path_shape (R : List String) (url : String) (hne : R ≠ [])
    (hg : ∀ s ∈ R, goodSeg s = true) :
    tempDirOf ("/" ++ joinSegs R) url
        = ("/" ++ joinSegs R) ++ "/" ++ ("github_tools_" ++ strTake (sha256hex url) 12)
      ∧ (sha256hex url).length = 64
      ∧ (strTake (sha256hex url) 12).length = 12
      ∧ (∀ c ∈ (strTake (sha256hex url) 12).data, isHexDigitChar c = true)
      ∧ ∀ url' : String, url = url' →
          tempDirOf ("/" ++ joinSegs R) url = tempDirOf ("/" ++ joinSegs R) url' := by
  refine ⟨?_, sha256hex_length url, strTake12_length _ (sha256hex_length url), ?_, ?_⟩
  · exact pathJoin_seg R _ hne hg (cacheSeg_good url)
  · intro c hc
    have : c ∈ hexChars := sha256hex_chars (List.take_subset 12 _ hc)
    fin_cases this <;> decide
  · intro url' h
    rw [h]

/-- C10: the batch reader resolves each requested path by plain
`path.join` with the repository root; a `".."`-free requested path
lands beneath the root, and an absolute requested path is treated as
relative — its leading separator does not replace the root. -/
theorem reader_join_confined :
    (∀ (root : String) (t : FSTree) (p : String),
      readOutcome root t p
        = match resolveFull root t (pathJoin root p) with
          | none => "Error: File not found"
          | some (.file c) => c
          | some (.dir _) =>
            "Error reading file: EISDIR: illegal operation on a directory, read")
    ∧ (∀ (R : List String) (p : String), R ≠ [] → (∀ s ∈ R, goodSeg s = true) →
      (∀ s ∈ splitSegs p, s ≠ "..") →
      ∃ suf, pathJoin ("/" ++ joinSegs R) p = ("/" ++ joinSegs R) ++ suf
        ∧ (suf = "" ∨ suf.data.head? = some '/'))
    ∧ pathJoin "/tmp/repo" "/etc/passwd" = "/tmp/repo/etc/passwd" := by
  refine ⟨fun root t p => rfl, pathJoin_confined, ?_⟩
  decide

/-! ## Renderer lemmas: order, equivalence, filtering -/

theorem strEmpty_append (s : String) : "" ++ s = s := by
  apply strExt; simp [strData_append]

theorem strLength_append (a b : String) : (a ++ b).length = a.length + b.length := by
  show (a ++ b).data.length = a.data.length + b.data.length
  simp [strData_append]

theorem charsLE_trans :
    ∀ a b c : List Char, charsLE a b = true → charsLE b c = true → charsLE a c = true := by
  intro a
  induction a with
  | nil => intro b c _ _; rfl
  | cons x xs ih =>
    intro b c hab hbc
    cases b with
    | nil => simp [charsLE] at hab
    | cons y ys =>
      cases c with
      | nil => simp [charsLE] at hbc
      | cons z zs =>
        simp only [charsLE] at hab hbc ⊢
        by_cases hxy : x = y
        · subst hxy
          simp only [if_pos rfl] at hab
          by_cases hyz : x = z
          · subst hyz
            simp only [if_pos rfl] at hbc ⊢
            exact ih ys zs hab hbc
          · simp only [if_neg hyz] at hbc ⊢
            exact hbc
        · simp only [if_neg hxy] at hab
          have hxy' : x < y := of_decide_eq_true hab
          by_cases hyz : y = z
          · rw [← hyz, if_neg hxy]
            exact decide_eq_true hxy'
          · have hyz' : y < z := of_decide_eq_true (by simpa [hyz] using hbc)
            have hxz : x < z := lt_trans hxy' hyz'
            rw [if_neg (ne_of_lt hxz)]
            exact decide_eq_true hxz

theorem charsLE_total (a b : List Char) : charsLE a b = true ∨ charsLE b a = true := by
  induction a generalizing b with
  | nil => left; rfl
  | cons x xs ih =>
    cases b with
    | nil => right; rfl
    | cons y ys =>
      simp only [charsLE]
      by_cases hxy : x = y
      · subst hxy
        simpa using ih ys
      · rcases lt_or_gt_of_ne hxy with h | h
        · left; rw [if_neg hxy]; exact decide_eq_true h
        · right; rw [if_neg (ne_of_lt h)]; exact decide_eq_true h

theorem entryLE_trans : ∀ a b c : String × FSTree,
    entryLE a b = true → entryLE b c = true → entryLE a c = true :=
  fun _ _ _ hab hbc => charsLE_trans _ _ _ hab hbc

theorem entryLE_total (a b : String × FSTree) :
    entryLE a b = true ∨ entryLE b a = true :=
  charsLE_total _ _

theorem pairwise_insertSortedBy {le : String × FSTree → String × FSTree → Bool}
    (htrans : ∀ a b c, le a b = true → le b c = true → le a c = true)
    (htot : ∀ a b, le a b = true ∨ le b a = true)
    (a : String × FSTree) :
    ∀ l, List.Pairwise (fun x y => le x y = true) l →
      List.Pairwise (fun x y => le x y = true) (insertSortedBy le a l) := by
  intro l
  induction l with
  | nil => intro _; simp [insertSortedBy]
  | cons b bs ih =>
    intro hp
    rw [List.pairwise_cons] at hp
    simp only [insertSortedBy]
    by_cases hab : le a b = true
    · rw [if_pos hab, List.pairwise_cons]
      refine ⟨?_, List.pairwise_cons.mpr hp⟩
      intro x hx
      rcases List.mem_cons.mp hx with hx | hx
      · subst hx; exact hab
      · exact htrans a b x hab (hp.1 x hx)
    · rw [if_neg hab, List.pairwise_cons]
      have hba : le b a = true := (htot a b).resolve_left hab
      refine ⟨?_, ih hp.2⟩
      intro x hx
      have hx' : x ∈ a :: bs := (perm_insertSortedBy le a bs).mem_iff.mp hx
      rcases List.mem_cons.mp hx' with hx' | hx'
      · subst hx'; exact hba
      · exact hp.1 x hx'

theorem pairwise_sortEntries (es : List (String × FSTree)) :
    List.Pairwise (fun x y => entryLE x y = true) (sortEntries es) := by
  unfold sortEntries sortBy
  induction es with
  | nil => simp
  | cons e es ih =>
    simp only [List.foldr_cons]
    exact pairwise_insertSortedBy entryLE_trans entryLE_total e _ ih

theorem concatLines_nil : concatLines [] = "" := rfl

theorem concatLines_cons (l : RLine) (ls : List RLine) :
    concatLines (l :: ls) = lineText l ++ concatLines ls := rfl

theorem concatLines_append (a b : List RLine) :
    concatLines (a ++ b) = concatLines a ++ concatLines b := by
  induction a with
  | nil => simp [concatLines, strEmpty_append]
  | cons l ls ih =>
    simp only [List.cons_append, concatLines, List.foldr_cons] at ih ⊢
    rw [ih, strAppend_assoc]

theorem sizeOf_mem_sortEntries {es : List (String × FSTree)} {p : String × FSTree}
    (hp : p ∈ sortEntries es) : sizeOf p.2 < sizeOf (FSTree.dir es) := by
  have hmem : p ∈ es := ((perm_sortBy entryLE es).mem_iff).mp hp
  have h1 : sizeOf p < sizeOf es := List.sizeOf_lt_of_mem hmem
  obtain ⟨a, b⟩ := p
  simp at h1 ⊢
  omega

theorem renderLoop_eq_lines (pfx : String) (total : Nat) :
    ∀ (i : Nat) (items : List (String × FSTree)),
      (∀ p ∈ items, ∀ q, getDirectoryTree p.2 q = concatLines (renderRLines p.2 q)) →
      renderLoop pfx total i items = concatLines (renderRLinesLoop pfx total i items) := by
  intro i items
  induction items generalizing i with
  | nil => intro _; simp [renderLoop, renderRLinesLoop, concatLines]
  | cons e rest ih =>
    intro hchild
    obtain ⟨name, sub⟩ := e
    have htail : ∀ p ∈ rest, ∀ q, getDirectoryTree p.2 q = concatLines (renderRLines p.2 q) :=
      fun p hp => hchild p (by simp [hp])
    by_cases hskip : strStartsWith name ".git" = true
    · simp only [renderLoop, renderRLinesLoop, hskip, if_true]
      exact ih (i + 1) htail
    · have hskip' : strStartsWith name ".git" = false := by
        simpa using hskip
      have hhead := hchild (name, sub) (by simp)
      simp only [renderLoop, renderRLinesLoop, hskip', Bool.false_eq_true, if_false]
      have hchildstr :
          (if sub.isDir then
              getDirectoryTree sub (pfx ++ (if i = total - 1 then "    " else "│   "))
            else "")
          = concatLines (if sub.isDir then
              renderRLines sub (pfx ++ (if i = total - 1 then "    " else "│   "))
            else []) := by
        by_cases hd : sub.isDir <;> simp [hd, hhead, concatLines]
      rw [ih (i + 1) htail, hchildstr, concatLines_cons, concatLines_append, lineText]
      simp [strAppend_assoc]

theorem render_eq_lines :
    ∀ (t : FSTree) (pfx : String),
      getDirectoryTree t pfx = concatLines (renderRLines t pfx) := by
  suffices H : ∀ (n : Nat) (t : FSTree), sizeOf t ≤ n → ∀ pfx : String,
      getDirectoryTree t pfx = concatLines (renderRLines t pfx) by
    intro t pfx; exact H (sizeOf t) t le_rfl pfx
  intro n
  induction n with
  | zero =>
    intro t h
    cases t <;> simp_arith at h
  | succ n ih =>
    intro t ht pfx
    cases t with
    | file c => simp [getDirectoryTree, renderRLines, concatLines]
    | dir es =>
      simp only [getDirectoryTree, renderRLines]
      apply renderLoop_eq_lines
      intro p hp q
      have hlt : sizeOf p.2 < sizeOf (FSTree.dir es) := sizeOf_mem_sortEntries hp
      exact ih p.2 (by omega) q

theorem renderRLinesLoop_no_git (pfx : String) (total : Nat) :
    ∀ (i : Nat) (items : List (String × FSTree)),
      (∀ p ∈ items, ∀ (q : String) (l : RLine), l ∈ renderRLines p.2 q →
        strStartsWith l.name ".git" = false) →
      ∀ l ∈ renderRLinesLoop pfx total i items, strStartsWith l.name ".git" = false := by
  intro i items
  induction items generalizing i with
  | nil => intro _ l hl; simp [renderRLinesLoop] at hl
  | cons e rest ih =>
    intro hchild l hl
    obtain ⟨name, sub⟩ := e
    have htail : ∀ p ∈ rest, ∀ (q : String) (l : RLine), l ∈ renderRLines p.2 q →
        strStartsWith l.name ".git" = false :=
      fun p hp => hchild p (List.mem_cons_of_mem _ hp)
    by_cases hskip : strStartsWith name ".git" = true
    · simp only [renderRLinesLoop, hskip, if_true] at hl
      exact ih (i + 1) htail l hl
    · have hskip' : strStartsWith name ".git" = false := by simpa using hskip
      simp only [renderRLinesLoop, hskip', Bool.false_eq_true, if_false] at hl
      rcases List.mem_cons.mp hl with hl | hl
      · subst hl; exact hskip'
      · rcases List.mem_append.mp hl with hl | hl
        · by_cases hd : sub.isDir = true
          · rw [if_pos hd] at hl
            exact hchild (name, sub) (by simp) _ l hl
          · simp only [Bool.not_eq_true] at hd
            simp [hd] at hl
        · exact ih (i + 1) htail l hl

theorem renderRLines_no_git :
    ∀ (t : FSTree) (pfx : String), ∀ l ∈ renderRLines t pfx,
      strStartsWith l.name ".git" = false := by
  suffices H : ∀ (n : Nat) (t : FSTree), sizeOf t ≤ n → ∀ (pfx : String),
      ∀ l ∈ renderRLines t pfx, strStartsWith l.name ".git" = false by
    intro t pfx; exact H (sizeOf t) t le_rfl pfx
  intro n
  induction n with
  | zero => intro t h; cases t <;> simp_arith at h
  | succ n ih =>
    intro t ht pfx l hl
    cases t with
    | file c => simp [renderRLines] at hl
    | dir es =>
      simp only [renderRLines] at hl
      refine renderRLinesLoop_no_git pfx _ 0 _ ?_ l hl
      intro p hp q l' hl'
      have hlt : sizeOf p.2 < sizeOf (FSTree.dir es) := sizeOf_mem_sortEntries hp
      exact ih p.2 (by omega) q l' hl'

theorem renderRLinesLoop_pre_len (pfx : String) (total : Nat) :
    ∀ (i : Nat) (items : List (String × FSTree)),
      (∀ p ∈ items, ∀ (q : String) (l : RLine), l ∈ renderRLines p.2 q →
        q.length ≤ l.pre.length) →
      ∀ l ∈ renderRLinesLoop pfx total i items, pfx.length ≤ l.pre.length := by
  intro i items
  induction items generalizing i with
  | nil => intro _ l hl; simp [renderRLinesLoop] at hl
  | cons e rest ih =>
    intro hchild l hl
    obtain ⟨name, sub⟩ := e
    have htail : ∀ p ∈ rest, ∀ (q : String) (l : RLine), l ∈ renderRLines p.2 q →
        q.length ≤ l.pre.length :=
      fun p hp => hchild p (List.mem_cons_of_mem _ hp)
    by_cases hskip : strStartsWith name ".git" = true
    · simp only [renderRLinesLoop, hskip, if_true] at hl
      exact ih (i + 1) htail l hl
    · have hskip' : strStartsWith name ".git" = false := by simpa using hskip
      simp only [renderRLinesLoop, hskip', Bool.false_eq_true, if_false] at hl
      rcases List.mem_cons.mp hl with hl | hl
      · subst hl; exact le_rfl
      · rcases List.mem_append.mp hl with hl | hl
        · by_cases hd : sub.isDir = true
          · rw [if_pos hd] at hl
            have := hchild (name, sub) (by simp) _ l hl
            rw [strLength_append] at this
            omega
          · simp only [Bool.not_eq_true] at hd
            simp [hd] at hl
        · exact ih (i + 1) htail l hl

theorem renderRLines_pre_len :
    ∀ (t : FSTree) (q : String), ∀ l ∈ renderRLines t q, q.length ≤ l.pre.length := by
  suffices H : ∀ (n : Nat) (t : FSTree), sizeOf t ≤ n → ∀ (q : String),
      ∀ l ∈ renderRLines t q, q.length ≤ l.pre.length by
    intro t q; exact H (sizeOf t) t le_rfl q
  intro n
  induction n with
  | zero => intro t h; cases t <;> simp_arith at h
  | succ n ih =>
    intro t ht q l hl
    cases t with
    | file c => simp [renderRLines] at hl
    | dir es =>
      simp only [renderRLines] at hl
      refine renderRLinesLoop_pre_len q _ 0 _ ?_ l hl
      intro p hp q' l' hl'
      have hlt : sizeOf p.2 < sizeOf (FSTree.dir es) := sizeOf_mem_sortEntries hp
      exact ih p.2 (by omega) q' l' hl'

theorem nextPrefix_length (c : Prop) [Decidable c] :
    (if c then ("    " : String) else "│   ").length = 4 := by
  by_cases h : c <;> simp [h] <;> rfl

theorem renderRLinesLoop_top (pfx : String) (total : Nat) :
    ∀ (i : Nat) (items : List (String × FSTree)),
      (renderRLinesLoop pfx total i items).filter (fun l => l.pre == pfx)
        = (items.enumFrom i).filterMap (fun x =>
            if strStartsWith x.2.1 ".git" = true then none
            else some ⟨pfx, if x.1 = total - 1 then "└── " else "├── ", x.2.1⟩) := by
  intro i items
  induction items generalizing i with
  | nil => simp [renderRLinesLoop]
  | cons e rest ih =>
    obtain ⟨name, sub⟩ := e
    have henum : List.enumFrom i ((name, sub) :: rest)
        = (i, (name, sub)) :: List.enumFrom (i + 1) rest := rfl
    by_cases hskip : strStartsWith name ".git" = true
    · simp only [renderRLinesLoop, hskip, if_true, henum, List.filterMap_cons]
      exact ih (i + 1)
    · have hskip' : strStartsWith name ".git" = false := by simpa using hskip
      have hchild_nil :
          (List.filter (fun l => l.pre == pfx)
            (if sub.isDir then
              renderRLines sub (pfx ++ (if i = total - 1 then "    " else "│   "))
            else [])) = [] := by
        rw [List.filter_eq_nil_iff]
        intro l hl
        by_cases hd : sub.isDir = true
        · rw [if_pos hd] at hl
          have hlen := renderRLines_pre_len sub _ l hl
          rw [strLength_append, nextPrefix_length] at hlen
          have hne : l.pre ≠ pfx := by
            intro he
            rw [he] at hlen
            omega
          simp [hne]
        · simp only [Bool.not_eq_true] at hd
          simp [hd] at hl
      simp only [renderRLinesLoop, hskip', Bool.false_eq_true, if_false, henum,
        List.filterMap_cons, List.filter_cons, List.filter_append, hchild_nil]
      rw [ih (i + 1)]
      simp [List.nil_append]

theorem renderRLines_top (es : List (String × FSTree)) (pfx : String) :
    (renderRLines (.dir es) pfx).filter (fun l => l.pre == pfx)
      = ((sortEntries es).enumFrom 0).filterMap (fun x =>
          if strStartsWith x.2.1 ".git" = true then none
          else some ⟨pfx,
            if x.1 = (sortEntries es).length - 1 then "└── " else "├── ", x.2.1⟩) := by
  simp only [renderRLines]
  exact renderRLinesLoop_top pfx _ 0 _

theorem topNames_sublist (pfx : String) (total : Nat) :
    ∀ (i : Nat) (items : List (String × FSTree)),
      List.Sublist
        (((items.enumFrom i).filterMap (fun x =>
            if strStartsWith x.2.1 ".git" = true then none
            else some (⟨pfx, if x.1 = total - 1 then "└── " else "├── ",
              x.2.1⟩ : RLine))).map RLine.name)
        (items.map (fun e => e.1)) := by
  intro i items
  induction items generalizing i with
  | nil => simp
  | cons e rest ih =>
    obtain ⟨name, sub⟩ := e
    have henum : List.enumFrom i ((name, sub) :: rest)
        = (i, (name, sub)) :: List.enumFrom (i + 1) rest := rfl
    rw [henum, List.filterMap_cons]
    by_cases hskip : strStartsWith name ".git" = true
    · simp only [hskip, if_true]
      exact (ih (i + 1)).cons _
    · have hskip' : strStartsWith name ".git" = false := by simpa using hskip
      simp only [hskip', Bool.false_eq_true, if_false, List.map_cons]
      exact (ih (i + 1)).cons₂ _

/-! ## Claims about the tree renderer -/

/-- C5: `getDirectoryTree` is a pure function of the directory state,
so two renders of the same unmodified directory are byte-identical; the
output is exactly the concatenation of the structured rendered lines;
no rendered entry name starts with the version-control metadata prefix
`".git"` (such entries are neither listed nor recursed into, which is
why no line of any deeper level carries one either); and the entry
names rendered at any level appear in lexicographically sorted order. -/
theorem render_deterministic_sorted_no_meta (t : FSTree) (pfx : String) :
    getDirectoryTree t pfx = getDirectoryTree t pfx
    ∧ getDirectoryTree t pfx = concatLines (renderRLines t pfx)
    ∧ (∀ l ∈ renderRLines t pfx, strStartsWith l.name ".git" = false)
    ∧ List.Pairwise (fun a b => strLE a b = true)
        (((renderRLines t pfx).filter (fun l => l.pre == pfx)).map RLine.name) := by
  refine ⟨rfl, render_eq_lines t pfx, renderRLines_no_git t pfx, ?_⟩
  cases t with
  | file c => simp [renderRLines]
  | dir es =>
    rw [renderRLines_top]
    have hnames : List.Pairwise (fun a b => strLE a b = true)
        ((sortEntries es).map (fun e => e.1)) := by
      rw [List.pairwise_map]
      exact pairwise_sortEntries es
    exact List.Pairwise.sublist (topNames_sublist pfx _ 0 (sortEntries es)) hnames

/-- Witness for C5 at a concrete one-file directory. -/
theorem render_deterministic_sorted_no_meta_witness :
    strStartsWith (RLine.name ⟨"", "└── ", "a.txt"⟩) ".git" = false :=
  (render_deterministic_sorted_no_meta (.dir [("a.txt", FSTree.file "x")]) "").2.2.1
    ⟨"", "└── ", "a.txt"⟩
    (by simp +decide [renderRLines, renderRLinesLoop, sortEntries, sortBy,
      insertSortedBy, entryLE, strLE, charsLE, FSTree.isDir])

/-- C6 counterexample: in a directory containing `"!a"` and `".git"`,
the metadata entry sorts last, so the only rendered entry — which is
therefore the last entry of the rendered listing — is printed with the
mid-branch connector `"├── "`, not the terminal connector `"└── "` the
claim requires. -/
theorem last_connector_cex :
    getDirectoryTree (.dir [("!a", FSTree.file "c"), (".git", FSTree.dir [])]) ""
      = "├── !a\n"
    ∧ ("├── !a\n" : String) ≠ "└── !a\n" := by
  constructor
  · simp +decide [getDirectoryTree, renderLoop, sortEntries, sortBy,
      insertSortedBy, entryLE, strLE, charsLE, FSTree.isDir]
  · decide

/-- C6 amended: an entry is rendered with the terminal connector
exactly when its index in the full sorted listing — skipped metadata
entries included in the count — is the final index; a rendered entry
that is last only because a metadata entry sorting after it was skipped
uses the mid-branch connector.  The `.git`/`x.txt` example still yields
exactly one listed entry, `x.txt`, with the terminal connector. -/
theorem last_connector_full_listing :
    (∀ (es : List (String × FSTree)) (pfx : String),
      (renderRLines (.dir es) pfx).filter (fun l => l.pre == pfx)
        = ((sortEntries es).enumFrom 0).filterMap (fun x =>
            if strStartsWith x.2.1 ".git" = true then none
            else some ⟨pfx,
              if x.1 = (sortEntries es).length - 1 then "└── " else "├── ", x.2.1⟩))
    ∧ getDirectoryTree (.dir [(".git", FSTree.dir []), ("x.txt", FSTree.file "c")]) ""
        = "└── x.txt\n" := by
  constructor
  · exact renderRLines_top
  · simp +decide [getDirectoryTree, renderLoop, sortEntries, sortBy,
      insertSortedBy, entryLE, strLE, charsLE, FSTree.isDir]

theorem renderLoop_all_meta (pfx : String) (total : Nat) :
    ∀ (i : Nat) (items : List (String × FSTree)),
      (∀ x ∈ items, strStartsWith x.1 ".git" = true) →
      renderLoop pfx total i items = "" := by
  intro i items
  induction items generalizing i with
  | nil => intro _; simp [renderLoop]
  | cons e rest ih =>
    intro h
    obtain ⟨name, sub⟩ := e
    have hh : strStartsWith name ".git" = true := h (name, sub) (by simp)
    simp only [renderLoop, hh, if_true]
    exact ih (i + 1) (fun x hx => h x (by simp [hx]))

/-- C9: a directory whose listing is empty, or all of whose entries
carry the version-control metadata prefix, renders to the empty string;
the render is a total function, so it does not fail. -/
theorem render_empty_or_all_meta (es : List (String × FSTree)) (pfx : String)
    (h : ∀ e ∈ es, strStartsWith e.1 ".git" = true) :
    getDirectoryTree (.dir es) pfx = "" := by
  simp only [getDirectoryTree]
  apply renderLoop_all_meta
  intro x hx
  exact h x ((perm_sortBy entryLE es).mem_iff.mp hx)

/-- Witness for C9 at a directory holding only `.git`. -/
theorem render_empty_or_all_meta_witness :
    getDirectoryTree (.dir [((".git" : String), FSTree.dir [])]) "" = "" :=
  render_empty_or_all_meta _ "" (by decide)

/-! ## Claims about the batch file reader -/

theorem setKey_keys (m : List (String × String)) (k v : String) :
    ∀ e ∈ setKey m k v, e.1 = k ∨ e ∈ m := by
  induction m with
  | nil =>
    intro e he
    simp only [setKey, List.mem_singleton] at he
    left; rw [he]
  | cons kv rest ih =>
    obtain ⟨k', v'⟩ := kv
    intro e he
    by_cases hk : k' = k
    · rw [setKey, if_pos hk] at he
      rcases List.mem_cons.mp he with he | he
      · left; rw [he]; exact hk
      · right; exact List.mem_cons_of_mem _ he
    · rw [setKey, if_neg hk] at he
      rcases List.mem_cons.mp he with he | he
      · right; rw [he]; exact List.mem_cons_self _ _
      · rcases ih e he with h | h
        · left; exact h
        · right; exact List.mem_cons_of_mem _ h

theorem filter_setKey_self (out : String → String) (q : String) :
    ∀ m : List (String × String),
      (m.filter (fun e => e.1 == q) = []
        ∨ m.filter (fun e => e.1 == q) = [(q, out q)]) →
      (setKey m q (out q)).filter (fun e => e.1 == q) = [(q, out q)] := by
  intro m
  induction m with
  | nil => intro _; simp [setKey]
  | cons kv rest ih =>
    obtain ⟨k', v'⟩ := kv
    intro hm
    by_cases hk : k' = q
    · subst hk
      rw [setKey, if_pos rfl]
      have hfc : ((k', v') :: rest).filter (fun e => e.1 == k')
          = (k', v') :: rest.filter (fun e => e.1 == k') := by
        simp [List.filter_cons]
      rcases hm with hm | hm
      · rw [hfc] at hm; simp at hm
      · rw [hfc] at hm
        have h1 : rest.filter (fun e => e.1 == k') = [] := (List.cons.injEq _ _ _ _ ▸ hm).2
        have h2 : v' = out k' := by
          have := (List.cons.injEq _ _ _ _ ▸ hm).1
          exact (Prod.mk.injEq _ _ _ _ ▸ this).2
        simp [List.filter_cons, h1]
    · rw [setKey, if_neg hk]
      have hk' : (((k', v') : String × String).1 == q) = false := by
        simpa using hk
      have hfc : ((k', v') :: rest).filter (fun e => e.1 == q)
          = rest.filter (fun e => e.1 == q) := by
        simp [List.filter_cons, hk']
      rw [hfc] at hm
      simp [List.filter_cons, hk', ih hm]

theorem filter_setKey_nil (p q v : String) (hqp : q ≠ p) :
    ∀ m : List (String × String), m.filter (fun e => e.1 == p) = [] →
      (setKey m q v).filter (fun e => e.1 == p) = [] := by
  intro m
  induction m with
  | nil =>
    intro _
    simp [setKey, List.filter_cons, hqp]
  | cons kv rest ih =>
    obtain ⟨k', v'⟩ := kv
    intro hm
    rw [List.filter_cons] at hm
    by_cases hkp : (k' == p) = true
    · simp [hkp] at hm
    · have hkp' : (k' == p) = false := by simpa using hkp
      rw [hkp'] at hm
      simp only [Bool.false_eq_true, if_false] at hm
      by_cases hk : k' = q
      · rw [setKey, if_pos hk]
        simp [List.filter_cons, hkp', hm]
      · rw [setKey, if_neg hk]
        simp [List.filter_cons, hkp', ih hm]

theorem filter_setKey_keep (out : String → String) (p q : String) :
    ∀ m : List (String × String),
      m.filter (fun e => e.1 == p) = [(p, out p)] →
      (setKey m q (out q)).filter (fun e => e.1 == p) = [(p, out p)] := by
  by_cases hqp : q = p
  · subst hqp
    intro m hm
    exact filter_setKey_self out q m (Or.inr hm)
  · intro m
    induction m with
    | nil => intro hm; simp at hm
    | cons kv rest ih =>
      obtain ⟨k', v'⟩ := kv
      intro hm
      rw [List.filter_cons] at hm
      by_cases hkp : (k' == p) = true
      · have hkp'' : k' = p := by simpa using hkp
        rw [hkp] at hm
        simp only [if_true] at hm
        have h1 : (k', v') = (p, out p) := (List.cons.injEq _ _ _ _ ▸ hm).1
        have h2 : rest.filter (fun e => e.1 == p) = [] := (List.cons.injEq _ _ _ _ ▸ hm).2
        have hk : ¬(k' = q) := by rw [hkp'']; exact fun h => hqp h.symm
        rw [setKey, if_neg hk]
        simp only [List.filter_cons, hkp, if_true]
        rw [filter_setKey_nil p q (out q) hqp rest h2, h1]
      · have hkp' : (k' == p) = false := by simpa using hkp
        rw [hkp'] at hm
        simp only [Bool.false_eq_true, if_false] at hm
        by_cases hk : k' = q
        · rw [setKey, if_pos hk]
          simp [List.filter_cons, hkp', hm]
        · rw [setKey, if_neg hk]
          simp [List.filter_cons, hkp', ih hm]

theorem inv_setKey (out : String → String) (q : String)
    (m : List (String × String))
    (hm : ∀ r, m.filter (fun e => e.1 == r) = []
      ∨ m.filter (fun e => e.1 == r) = [(r, out r)]) :
    ∀ r, (setKey m q (out q)).filter (fun e => e.1 == r) = []
      ∨ (setKey m q (out q)).filter (fun e => e.1 == r) = [(r, out r)] := by
  intro r
  by_cases hrq : r = q
  · subst hrq
    exact Or.inr (filter_setKey_self out r m (hm r))
  · rcases hm r with h | h
    · exact Or.inl (filter_setKey_nil r q (out q) (fun he => hrq he.symm) m h)
    · exact Or.inr (filter_setKey_keep out r q m h)

theorem foldl_filter_keep (out : String → String) (paths : List String) :
    ∀ (acc : List (String × String)) (p : String),
      acc.filter (fun e => e.1 == p) = [(p, out p)] →
      (paths.foldl (fun a q => setKey a q (out q)) acc).filter (fun e => e.1 == p)
        = [(p, out p)] := by
  induction paths with
  | nil => intro acc p h; simpa using h
  | cons q rest ih =>
    intro acc p h
    simp only [List.foldl_cons]
    exact ih _ p (filter_setKey_keep out p q acc h)

theorem foldl_inv_mem (out : String → String) (paths : List String) :
    ∀ (acc : List (String × String)),
      (∀ r, acc.filter (fun e => e.1 == r) = []
        ∨ acc.filter (fun e => e.1 == r) = [(r, out r)]) →
      ∀ p ∈ paths,
        (paths.foldl (fun a q => setKey a q (out q)) acc).filter (fun e => e.1 == p)
          = [(p, out p)] := by
  induction paths with
  | nil => intro _ _ p hp; simp at hp
  | cons q rest ih =>
    intro acc hinv p hp
    simp only [List.foldl_cons]
    rcases List.mem_cons.mp hp with hp | hp
    · subst hp
      exact foldl_filter_keep out rest _ p (filter_setKey_self out p acc (hinv p))
    · exact ih _ (inv_setKey out q acc hinv) p hp

theorem foldl_keys (out : String → String) (paths : List String) :
    ∀ (acc : List (String × String)) (e : String × String),
      e ∈ paths.foldl (fun a q => setKey a q (out q)) acc → e ∈ acc ∨ e.1 ∈ paths := by
  induction paths with
  | nil => intro acc e he; left; exact he
  | cons q rest ih =>
    intro acc e he
    simp only [List.foldl_cons] at he
    rcases ih _ e he with h | h
    · rcases setKey_keys acc q (out q) e h with h | h
      · right; rw [h]; exact List.mem_cons_self _ _
      · left; exact h
    · right; exact List.mem_cons_of_mem _ h

/-- C4: `readAll` is a total function of the request list: the empty
request yields the empty mapping; every requested path has exactly one
entry in the result, carrying that path's own outcome; no other keys
appear; and the per-path outcome is the file content when the joined
path resolves to a file, the `"Error: File not found"` marker when it
does not resolve, and an `"Error reading file: …"` marker when reading
fails (the joined path is a directory).  A failure on one path can
therefore never abort the batch. -/
theorem readAll_total (root : String) (t : FSTree) (paths : List String) :
    readAll root t [] = []
    ∧ (∀ p ∈ paths, (readAll root t paths).filter (fun e => e.1 == p)
        = [(p, readOutcome root t p)])
    ∧ (∀ e ∈ readAll root t paths, e.1 ∈ paths)
    ∧ (∀ p : String,
        (resolveFull root t (pathJoin root p) = none →
          readOutcome root t p = "Error: File not found")
        ∧ (∀ c, resolveFull root t (pathJoin root p) = some (.file c) →
          readOutcome root t p = c)
        ∧ (∀ es, resolveFull root t (pathJoin root p) = some (.dir es) →
          readOutcome root t p
            = "Error reading file: EISDIR: illegal operation on a directory, read")) := by
  refine ⟨rfl, ?_, ?_, ?_⟩
  · intro p hp
    exact foldl_inv_mem (readOutcome root t) paths [] (fun r => Or.inl rfl) p hp
  · intro e he
    rcases foldl_keys (readOutcome root t) paths [] e he with h | h
    · simp at h
    · exact h
  · intro p
    refine ⟨?_, ?_, ?_⟩
    · intro h; simp [readOutcome, h]
    · intro c h; simp [readOutcome, h]
    · intro es h; simp [readOutcome, h]

/-- Witness for C4 at a two-path request with one hit and one miss. -/
theorem readAll_total_witness :
    (readAll "/r" (FSTree.dir [("a.txt", FSTree.file "hello")])
        ["a.txt", "missing.txt"]).filter (fun e => e.1 == "a.txt")
      = [("a.txt",
          readOutcome "/r" (FSTree.dir [("a.txt", FSTree.file "hello")]) "a.txt")] :=
  (readAll_total "/r" (FSTree.dir [("a.txt", FSTree.file "hello")])
    ["a.txt", "missing.txt"]).2.1 "a.txt" (by simp)

/-! ## Claims about repository acquisition -/

theorem lookupKey_nil (p : String) : lookupKey p [] = none := rfl

theorem FS.lookup_set_self (fs : FS) (p : String) (st : DirSt) :
    (fs.set p st).lookup p = some st := by
  simp [FS.set, FS.lookup, lookupKey]

theorem lookupKey_filter_ne (p : String) :
    ∀ l : List (String × DirSt),
      lookupKey p (l.filter (fun e => !(e.1 = p : Bool))) = none := by
  intro l
  induction l with
  | nil => rfl
  | cons kv rest ih =>
    obtain ⟨k, v⟩ := kv
    by_cases hk : k = p
    · simp [List.filter_cons, hk, ih]
    · simp [List.filter_cons, hk, lookupKey, ih]

theorem FS.lookup_erase_self (fs : FS) (p : String) :
    (fs.erase p).lookup p = none :=
  lookupKey_filter_ne p fs.dirs

theorem ensureDir_lookup_of_none {fs : FS} {p : String}
    (h : fs.lookup p = none) : (fs.ensureDir p).lookup p = some .emptyD := by
  simp [FS.ensureDir, h, FS.lookup_set_self]

theorem cloneRepo_reuse (env : GitEnv) (tmpdir : String) (fs : FS) (url : String)
    (rs : List String) (tr : FSTree)
    (h : fs.lookup (tempDirOf tmpdir url) = some (.repo (url :: rs) tr)) :
    cloneRepo env tmpdir fs url = ⟨.ok (tempDirOf tmpdir url), fs, 0⟩ := by
  simp [cloneRepo, h, probeRemotes]

/-- C1: a cache directory that probes as a working copy whose first
remote fetch URL equals the requested URL is reused as-is: the same
path is returned, the disk is untouched, and the clone primitive is
never invoked.  Consequently two acquisitions in a row starting from an
absent cache perform exactly one clone call in total, and the second
returns the same local path without touching the network. -/
theorem acquire_reuse_no_fetch :
    (∀ (env : GitEnv) (tmpdir : String) (fs : FS) (url : String)
        (rs : List String) (tr : FSTree),
      fs.lookup (tempDirOf tmpdir url) = some (.repo (url :: rs) tr) →
      cloneRepo env tmpdir fs url = ⟨.ok (tempDirOf tmpdir url), fs, 0⟩)
    ∧ (∀ (env : GitEnv) (tmpdir : String) (fs : FS) (url : String),
      env.cloneOk url = true →
      fs.lookup (tempDirOf tmpdir url) = none →
      (cloneRepo env tmpdir fs url).cloneCalls = 1
      ∧ (cloneRepo env tmpdir fs url).res = .ok (tempDirOf tmpdir url)
      ∧ cloneRepo env tmpdir (cloneRepo env tmpdir fs url).fs url
          = ⟨.ok (tempDirOf tmpdir url), (cloneRepo env tmpdir fs url).fs, 0⟩) := by
  constructor
  · exact cloneRepo_reuse
  · intro env tmpdir fs url hok h
    have he := @ensureDir_lookup_of_none fs (tempDirOf tmpdir url) h
    have h1 : cloneRepo env tmpdir fs url
        = ⟨.ok (tempDirOf tmpdir url),
           (fs.ensureDir (tempDirOf tmpdir url)).set (tempDirOf tmpdir url)
             (.repo [url] (env.repoTree url)), 1⟩ := by
      simp [cloneRepo, h, doClone, he, hok]
    refine ⟨by rw [h1], by rw [h1], ?_⟩
    rw [h1]
    exact cloneRepo_reuse env tmpdir _ url [] (env.repoTree url)
      (FS.lookup_set_self _ _ _)

/-- Witness environment: every clone succeeds. -/
def envOkW : GitEnv := ⟨fun _ => true, fun _ => "", fun _ => .dir []⟩

/-- Witness cache: a valid working copy for `"u"` already present. -/
def fsReuseW : FS := ⟨[(tempDirOf "/tmp" "u", .repo ["u"] (.dir []))]⟩

/-- Witness for C1: the pre-warmed cache is reused with zero clone
calls. -/
theorem acquire_reuse_no_fetch_witness :
    cloneRepo envOkW "/tmp" fsReuseW "u" = ⟨.ok (tempDirOf "/tmp" "u"), fsReuseW, 0⟩ :=
  acquire_reuse_no_fetch.1 envOkW "/tmp" fsReuseW "u" [] (.dir [])
    (by simp [fsReuseW, FS.lookup, lookupKey])

/-- C3: when the cache is absent and the network fetch fails, the call
reports `Failed to clone repository: <cause>`, the partially created
directory is removed again (the cache path is absent afterwards), and
exactly one clone call was made. -/
theorem clone_failure_cleanup :
    ∀ (env : GitEnv) (tmpdir : String) (fs : FS) (url : String),
      env.cloneOk url = false →
      fs.lookup (tempDirOf tmpdir url) = none →
      (cloneRepo env tmpdir fs url).res
          = .error ("Failed to clone repository: " ++ env.cloneErrMsg url)
      ∧ (cloneRepo env tmpdir fs url).fs.lookup (tempDirOf tmpdir url) = none
      ∧ (cloneRepo env tmpdir fs url).cloneCalls = 1 := by
  intro env tmpdir fs url hok h
  have he := @ensureDir_lookup_of_none fs (tempDirOf tmpdir url) h
  have h1 : cloneRepo env tmpdir fs url
      = ⟨.error ("Failed to clone repository: " ++ env.cloneErrMsg url),
         (fs.ensureDir (tempDirOf tmpdir url)).erase (tempDirOf tmpdir url), 1⟩ := by
    simp [cloneRepo, h, doClone, he, hok]
  refine ⟨by rw [h1], ?_, by rw [h1]⟩
  rw [h1]
  exact FS.lookup_erase_self _ _

/-- Witness environment: the network is down. -/
def envFailW : GitEnv := ⟨fun _ => false, fun _ => "getaddrinfo ENOTFOUND", fun _ => .dir []⟩

/-- Witness for C3: a failed first acquisition leaves no cache
directory behind. -/
theorem clone_failure_cleanup_witness :
    (cloneRepo envFailW "/tmp" ⟨[]⟩ "u").res
        = .error ("Failed to clone repository: " ++ envFailW.cloneErrMsg "u")
    ∧ (cloneRepo envFailW "/tmp" ⟨[]⟩ "u").fs.lookup (tempDirOf "/tmp" "u") = none
    ∧ (cloneRepo envFailW "/tmp" ⟨[]⟩ "u").cloneCalls = 1 :=
  clone_failure_cleanup envFailW "/tmp" ⟨[]⟩ "u" rfl rfl

/-- Environment for the C2 failing input: the network would succeed. -/
def envStale : GitEnv := ⟨fun _ => true, fun _ => "network unreachable", fun _ => .dir []⟩

/-- The C2 failing input: the cache directory for `https://host/a.git`
exists and is a valid working copy, but its recorded remote is
`https://host/b.git`. -/
def fsStale : FS :=
  ⟨[(tempDirOf "/tmp" "https://host/a.git",
     .repo ["https://host/b.git"] (.dir []))]⟩

/-- C2 (code bug): with a stale remote the code does **not** remove the
candidate directory before cloning — removal happens only in the probe
`catch` — so `git clone` is pointed at the still-populated directory
and fails; the error cleanup then removes the directory and the call
throws instead of returning a fresh working copy.  Only a second call
(which now finds the path absent) performs the fresh fetch the claim
promises for the first call. -/
theorem stale_remote_clone_fails :
    (cloneRepo envStale "/tmp" fsStale "https://host/a.git").res
      = .error "Failed to clone repository: fatal: destination path already exists and is not an empty directory."
    ∧ (cloneRepo envStale "/tmp" fsStale "https://host/a.git").cloneCalls = 1
    ∧ (cloneRepo envStale "/tmp" fsStale "https://host/a.git").fs.lookup
        (tempDirOf "/tmp" "https://host/a.git") = none
    ∧ (cloneRepo envStale "/tmp"
        (cloneRepo envStale "/tmp" fsStale "https://host/a.git").fs
        "https://host/a.git").res
      = .ok (tempDirOf "/tmp" "https://host/a.git") := by
  have hlook : fsStale.lookup (tempDirOf "/tmp" "https://host/a.git")
      = some (.repo ["https://host/b.git"] (.dir [])) := by
    simp [fsStale, FS.lookup, lookupKey]
  have hne : ¬(("https://host/b.git" : String) = "https://host/a.git") := by decide
  have h1 : cloneRepo envStale "/tmp" fsStale "https://host/a.git"
      = ⟨.error "Failed to clone repository: fatal: destination path already exists and is not an empty directory.",
         fsStale.erase (tempDirOf "/tmp" "https://host/a.git"), 1⟩ := by
    simp [cloneRepo, hlook, probeRemotes, hne, doClone, FS.ensureDir]
  have h2 : (fsStale.erase (tempDirOf "/tmp" "https://host/a.git")).lookup
      (tempDirOf "/tmp" "https://host/a.git") = none :=
    FS.lookup_erase_self _ _
  refine ⟨by rw [h1], by rw [h1], ?_, ?_⟩
  · rw [h1]; exact h2
  · rw [h1]
    have he := @ensureDir_lookup_of_none
      (fsStale.erase (tempDirOf "/tmp" "https://host/a.git"))
      (tempDirOf "/tmp" "https://host/a.git") h2
    simp [cloneRepo, h2, doClone, he, envStale]

/-! ## Claims about the tool handlers -/

theorem strLength_empty : ("" : String).length = 0 := rfl

theorem strNe_empty_of_length {s : String} (h : 0 < s.length) : s ≠ "" := by
  intro he
  rw [he] at h
  simp [strLength_empty] at h

theorem stringifyPairs_singleton_ne_empty (k v : String) :
    stringifyPairs [(k, v)] ≠ "" := by
  apply strNe_empty_of_length
  show 0 < ("\x7b\n" ++ joinSep ",\n" [("  " ++ jsonStr k ++ ": " ++ jsonStr v)]
    ++ "\n\x7d").length
  rw [strLength_append, strLength_append]
  have h2 : ("\x7b\n" : String).length = 2 := rfl
  omega

/-- C7: any acquisition failure aborts the whole tool invocation and is
surfaced as a soft failure — the error flag is set and the text carries
a human-readable message, never a silent empty result — for both
`git_directory_structure` and `git_read_important_files`; on successful
acquisition `git_read_important_files` never sets the error flag, and
individual file errors are embedded per path inside the JSON text via
`readAll`. -/
theorem acquisition_failure_soft :
    ∀ (env : GitEnv) (tmpdir : String) (fs : FS) (url : String) (paths : List String),
      (∀ e, (cloneRepo env tmpdir fs url).res = .error e →
        (handleGitDirectoryStructure env tmpdir fs url).1 = ⟨"Error: " ++ e, true⟩
        ∧ (handleGitReadImportantFiles env tmpdir fs url paths).1
            = ⟨stringifyPairs [("error", "Failed to process repository: " ++ e)], true⟩
        ∧ (handleGitDirectoryStructure env tmpdir fs url).1.text ≠ ""
        ∧ (handleGitReadImportantFiles env tmpdir fs url paths).1.text ≠ "")
      ∧ (∀ p, (cloneRepo env tmpdir fs url).res = .ok p →
        (handleGitDirectoryStructure env tmpdir fs url).1.isError = false
        ∧ (handleGitReadImportantFiles env tmpdir fs url paths).1.isError = false
        ∧ (handleGitReadImportantFiles env tmpdir fs url paths).1.text
            = stringifyPairs
                (readAll p ((cloneRepo env tmpdir fs url).fs.treeAt p) paths)) := by
  intro env tmpdir fs url paths
  constructor
  · intro e he
    have h1 : (handleGitDirectoryStructure env tmpdir fs url).1
        = ⟨"Error: " ++ e, true⟩ := by
      simp [handleGitDirectoryStructure, he]
    have h2 : (handleGitReadImportantFiles env tmpdir fs url paths).1
        = ⟨stringifyPairs [("error", "Failed to process repository: " ++ e)], true⟩ := by
      simp [handleGitReadImportantFiles, he]
    refine ⟨h1, h2, ?_, ?_⟩
    · rw [h1]
      apply strNe_empty_of_length
      rw [strLength_append]
      have h7 : ("Error: " : String).length = 7 := rfl
      omega
    · rw [h2]
      exact stringifyPairs_singleton_ne_empty _ _
  · intro p hp
    refine ⟨?_, ?_, ?_⟩ <;> simp [handleGitDirectoryStructure, handleGitReadImportantFiles, hp]

/-- Witness for C7: an unreachable remote produces the soft-failure
envelopes for both tools. -/
theorem acquisition_failure_soft_witness :
    (handleGitDirectoryStructure envFailW "/tmp" ⟨[]⟩ "https://x/y.git").1
        = ⟨"Error: " ++ "Failed to clone repository: getaddrinfo ENOTFOUND", true⟩
    ∧ (handleGitReadImportantFiles envFailW "/tmp" ⟨[]⟩ "https://x/y.git" []).1
        = ⟨stringifyPairs [("error", "Failed to process repository: "
            ++ "Failed to clone repository: getaddrinfo ENOTFOUND")], true⟩
    ∧ (handleGitDirectoryStructure envFailW "/tmp" ⟨[]⟩ "https://x/y.git").1.text ≠ ""
    ∧ (handleGitReadImportantFiles envFailW "/tmp" ⟨[]⟩ "https://x/y.git" []).1.text ≠ "" :=
  (acquisition_failure_soft envFailW "/tmp" ⟨[]⟩ "https://x/y.git" []).1
    "Failed to clone repository: getaddrinfo ENOTFOUND"
    (by
      have h := @ensureDir_lookup_of_none (⟨[]⟩ : FS)
        (tempDirOf "/tmp" "https://x/y.git") rfl
      simp [cloneRepo, doClone, h, envFailW, FS.lookup, lookupKey])

/-- Witness for C8 at `tmpdir = "/tmp"` and URL `"u"`. -/
theorem cache_path_shape_witness :
    tempDirOf ("/" ++ joinSegs ["tmp"]) "u"
        = ("/" ++ joinSegs ["tmp"]) ++ "/" ++ ("github_tools_" ++ strTake (sha256hex "u") 12)
      ∧ (sha256hex "u").length = 64
      ∧ (strTake (sha256hex "u") 12).length = 12
      ∧ (∀ c ∈ (strTake (sha256hex "u") 12).data, isHexDigitChar c = true)
      ∧ ∀ url' : String, "u" = url' →
          tempDirOf ("/" ++ joinSegs ["tmp"]) "u"
            = tempDirOf ("/" ++ joinSegs ["tmp"]) url' :=
  cache_path_shape ["tmp"] "u" (by decide) (by decide)

/-- Witness for C10 at root `"/repo"` and request `"src/index.js"`. -/
theorem reader_join_confined_witness :
    ∃ suf, pathJoin ("/" ++ joinSegs ["repo"]) "src/index.js"
        = ("/" ++ joinSegs ["repo"]) ++ suf
      ∧ (suf = "" ∨ suf.data.head? = some '/') :=
  reader_join_confined.2.1 ["repo"] "src/index.js" (by decide) (by decide) (by decide)

end GitRepoBrowser

